import Mathlib

/-!
Verification of the `llq` wait-free SPSC linked-list queue (src/lib.rs).

The heap of `NodeInner` cells is modelled as a partial map from addresses
(`Nat`) to cells, together with a bump allocator counter.  `MaybeUninit<T>`
slots are modelled as `Option`: `none` is an uninitialized slot, and a
bitwise move out of a slot marks the source slot uninitialized.  The atomic
`next` pointer is an `Option Nat` (`none` is the null pointer).  Fallible
or undefined-behaviour paths (dereferencing an address with no live cell)
are modelled by returning the input state unchanged; the invariants proved
below show those paths are never taken from reachable states.

Destructor calls on payloads (`ptr::drop_in_place` in the source) are
instrumented as event lists of type `List α`, so that the claims about
"exactly one destructor per payload" are about an explicit trace.
Atomic accesses are likewise instrumented as `AtomicEvent` traces carrying
their memory orderings, mirroring the `Ordering` arguments in the source.
-/

namespace LLQ

/-- The heap record behind a node: `struct NodeInner { next: AtomicPtr, data: MaybeUninit<T> }`. -/
structure NodeInner (α : Type) where
  next : Option Nat
  data : Option α
deriving DecidableEq

/-- The heap: a partial map from addresses to live cells plus a bump allocator. -/
structure Heap (α : Type) where
  mem : Nat → Option (NodeInner α)
  fresh : Nat

/-- Read the cell at address `p` (none if no live cell there). -/
def Heap.get (h : Heap α) (p : Nat) : Option (NodeInner α) :=
  h.mem p

/-- Overwrite the cell at address `p`. -/
def Heap.set (h : Heap α) (p : Nat) (c : NodeInner α) : Heap α :=
  { h with mem := fun q => if q = p then some c else h.mem q }

/-- Deallocate the cell at address `p` (`drop(Box::from_raw(p))`). -/
def Heap.free (h : Heap α) (p : Nat) : Heap α :=
  { h with mem := fun q => if q = p then none else h.mem q }

/-- Allocate a fresh cell (`Box::into_raw(Box::new(c))`), returning its address. -/
def Heap.alloc (h : Heap α) (c : NodeInner α) : Nat × Heap α :=
  (h.fresh, { mem := fun q => if q = h.fresh then some c else h.mem q, fresh := h.fresh + 1 })

/-- The empty heap. -/
def emptyHeap (α : Type) : Heap α :=
  { mem := fun _ => none, fresh := 0 }

/-- Heap well-formedness: no live cell at or above the allocator counter. -/
def HeapWF (h : Heap α) : Prop :=
  ∀ p, h.fresh ≤ p → h.mem p = none

/-- `Node<T>`: an owning handle wrapping the address of one `NodeInner` cell. -/
structure Node (α : Type) where
  inner : Nat
deriving DecidableEq

/-- `Node::new(data)`: allocates a cell with `next` null and `data` initialized. -/
def Node.new (h : Heap α) (v : α) : Node α × Heap α :=
  let (p, h') := h.alloc { next := none, data := some v }
  ({ inner := p }, h')

/-- `Node::into_inner(this)`: `ptr::read` of the data slot, then frees the cell
and forgets the handle.  No `drop_in_place` runs, so the destructor-event
trace (third component) is empty. -/
def Node.into_inner (h : Heap α) (n : Node α) : Option α × Heap α × List α :=
  (((h.get n.inner).bind NodeInner.data), h.free n.inner, [])

/-- `impl Drop for Node`: `drop_in_place` on the data slot (one destructor
event when the slot is initialized), then frees the cell. -/
def Node.dropN (h : Heap α) (n : Node α) : Heap α × List α :=
  (h.free n.inner, ((h.get n.inner).bind NodeInner.data).toList)

/-- Dereferencing a node handle (`Deref for Node`): reads the payload slot. -/
def derefNode (h : Heap α) (n : Node α) : Option α :=
  (h.get n.inner).bind NodeInner.data

/-- `Queue<T>` before `split`: owns the head (sentinel) pointer. -/
structure Queue (α : Type) where
  head : Nat

/-- The state shared by the `Producer` / `Consumer` pair after `split`:
the queue's `head` cell pointer and the producer's private `tail`. -/
structure Split (α : Type) where
  head : Nat
  tail : Nat

/-- `Queue::new()`: allocates the sentinel cell (`data` uninitialized, `next` null). -/
def Queue.new (h : Heap α) : Queue α × Heap α :=
  let (p, h') := h.alloc { next := none, data := none }
  ({ head := p }, h')

/-- `Queue::split()`: the producer's `tail` starts equal to `head`. -/
def Queue.split (q : Queue α) : Split α :=
  { head := q.head, tail := q.head }

/-- `Producer::push(node)`: forget the handle, store the node pointer into
`tail->next` (release), and advance the private tail.  The pushed cell's
`next` field is not written. -/
def push (h : Heap α) (s : Split α) (n : Node α) : Heap α × Split α :=
  let h' := match h.get s.tail with
    | some c => h.set s.tail { c with next := some n.inner }
    | none => h
  (h', { head := s.head, tail := n.inner })

/-- `Consumer::pop()`: acquire-load `head->next`; if null return `None`;
otherwise bitwise-move `next->data` into `head->data`, scrub `head->next`
to null (relaxed), advance `head`, and return the old sentinel as a `Node`.
The moved-out slot of the new sentinel is marked uninitialized. -/
def pop (h : Heap α) (s : Split α) : Option (Node α) × Heap α × Split α :=
  match h.get s.head with
  | none => (none, h, s)
  | some hc =>
    match hc.next with
    | none => (none, h, s)
    | some nxt =>
      match h.get nxt with
      | none => (none, h, s)
      | some nc =>
        let h1 := h.set s.head { next := none, data := nc.data }
        let h2 := h1.set nxt { nc with data := none }
        (some { inner := s.head }, h2, { head := nxt, tail := s.tail })

/-- The loop of `impl Drop for Queue`: walk the chain from `cur`, and for each
cell load its `next` (relaxed), run the payload destructor, and free the cell.
`fuel` bounds the walk; any `fuel ≥` the chain length is enough. -/
def dropChain (h : Heap α) (cur : Option Nat) (fuel : Nat) : Heap α × List α :=
  match fuel, cur with
  | _, none => (h, [])
  | 0, some _ => (h, [])
  | fuel + 1, some p =>
    match h.get p with
    | none => (h, [])
    | some c =>
      ((dropChain (h.free p) c.next fuel).1,
        c.data.toList ++ (dropChain (h.free p) c.next fuel).2)

/-- `impl Drop for Queue`: load `head->next` (relaxed), free the sentinel cell
without a payload destructor, then walk the chain destroying each payload. -/
def Queue.dropQ (h : Heap α) (s : Split α) (fuel : Nat) : Heap α × List α :=
  match h.get s.head with
  | none => (h, [])
  | some hc => dropChain (h.free s.head) hc.next fuel

/-- Dropping a list of node handles in order, concatenating destructor events. -/
def dropNodes (h : Heap α) : List (Node α) → Heap α × List α
  | [] => (h, [])
  | n :: ns =>
    ((dropNodes (Node.dropN h n).1 ns).1,
      (Node.dropN h n).2 ++ (dropNodes (Node.dropN h n).1 ns).2)

/-- The operations a client may perform on a split queue. -/
inductive Op (α : Type) where
  | push (v : α)
  | pop
deriving DecidableEq

/-- Whole-system state: the heap, the split queue, the node handles so far
returned by `pop` (in order), and the observed results of all `pop` calls
(`none` for an empty pop, `some v` for a pop that returned a node carrying `v`). -/
structure RunSt (α : Type) where
  heap : Heap α
  q : Split α
  popped : List (Node α)
  pops : List (Option α)

/-- One client operation: `push v` allocates a node via `Node::new` and pushes
it; `pop` records the observed result. -/
def stepOp (st : RunSt α) : Op α → RunSt α
  | .push v =>
    let (n, h1) := Node.new st.heap v
    let (h2, q2) := push h1 st.q n
    { st with heap := h2, q := q2 }
  | .pop =>
    match pop st.heap st.q with
    | (none, h, q) => { st with heap := h, q := q, pops := st.pops ++ [none] }
    | (some n, h, q) =>
      { heap := h, q := q, popped := st.popped ++ [n],
        pops := st.pops ++ [derefNode h n] }

/-- Run a list of operations. -/
def runOps (st : RunSt α) (ops : List (Op α)) : RunSt α :=
  ops.foldl stepOp st

/-- The initial state: `Queue::new().split()` on the empty heap. -/
def initSt (α : Type) : RunSt α :=
  let (q, h) := Queue.new (emptyHeap α)
  { heap := h, q := q.split, popped := [], pops := [] }

/-- The sequence of values passed to `push`, in order. -/
def pushedVals (ops : List (Op α)) : List α :=
  ops.filterMap fun op =>
    match op with
    | .push v => some v
    | .pop => none

/-- The sequence of values returned by successful pops, in order. -/
def valsPopped (st : RunSt α) : List α :=
  st.pops.filterMap id

/-- Teardown of the whole system: drop every node handle the consumer received,
then drop the queue (which both endpoints have released).  Returns the full
destructor-event trace.  The queue-drop fuel `fresh` bounds the chain length
because chain addresses are distinct allocator results. -/
def finalizeEvents (st : RunSt α) : List α :=
  (dropNodes st.heap st.popped).2 ++
    (Queue.dropQ (dropNodes st.heap st.popped).1 st.q
      (dropNodes st.heap st.popped).1.fresh).2

/-- `Chain h p l last`: starting from the cell at `p`, following `next`
pointers visits exactly the cells listed (with their initialized payloads)
in `l`, ending at `last` whose `next` is null. -/
inductive Chain (h : Heap α) : Nat → List (Nat × α) → Nat → Prop where
  | nil {p c} : h.get p = some c → c.next = none → Chain h p [] p
  | cons {p c q d v l last} :
      h.get p = some c → c.next = some q →
      h.get q = some d → d.data = some v →
      Chain h q l last → Chain h p ((q, v) :: l) last

/-- The queue-local invariant: the head cell is a live sentinel with an
uninitialized payload slot, the cells after it form a chain of initialized
payloads ending at the producer's tail, and all these addresses are distinct. -/
structure QInv (h : Heap α) (s : Split α) (l : List (Nat × α)) : Prop where
  sentinel : ∃ c, h.get s.head = some c ∧ c.data = none
  chain : Chain h s.head l s.tail
  nodup : (s.head :: l.map Prod.fst).Nodup

/-- The whole-system invariant: the queue invariant, heap well-formedness,
and the bookkeeping facts about popped node handles (each wraps a live cell
with null `next` and an initialized payload, disjoint from the queue's cells,
all distinct, and their payloads match the recorded pop results). -/
structure WF (st : RunSt α) (l : List (Nat × α)) : Prop where
  hwf : HeapWF st.heap
  qinv : QInv st.heap st.q l
  popped_cells : ∀ n ∈ st.popped, ∃ v, st.heap.get n.inner = some { next := none, data := some v }
  popped_disj : ∀ n ∈ st.popped, n.inner ∉ st.q.head :: l.map Prod.fst
  popped_nodup : (st.popped.map Node.inner).Nodup
  popped_vals : st.popped.map (fun n => derefNode st.heap n) = (st.pops.filterMap id).map some

/-- Repeated fill/drain rounds: for each list of values, push them all and
then pop exactly as many times. -/
def roundOps (vss : List (List α)) : List (Op α) :=
  (vss.map fun vs => vs.map Op.push ++ List.replicate vs.length Op.pop).flatten

/-- Memory orderings of the atomic accesses in the source. -/
inductive MemOrder where
  | relaxed
  | acquire
  | release
deriving DecidableEq

/-- An atomic access to the `next` field of the cell at address `cell`, with
its ordering and the pointer value stored or loaded. -/
inductive AtomicEvent where
  | load (cell : Nat) (ord : MemOrder) (value : Option Nat)
  | store (cell : Nat) (ord : MemOrder) (value : Option Nat)
deriving DecidableEq

/-- The ordering of an atomic event. -/
def AtomicEvent.ord : AtomicEvent → MemOrder
  | .load _ o _ => o
  | .store _ o _ => o

/-- The atomic accesses performed by `Producer::push`: the single
release-store of the node pointer into `tail->next`. -/
def pushEvents (s : Split α) (n : Node α) : List AtomicEvent :=
  [.store s.tail .release (some n.inner)]

/-- The atomic accesses performed by `Consumer::pop`: the acquire-load of
`head->next`, followed (when the load is non-null) by the relaxed store
scrubbing `head->next` to null. -/
def popEvents (h : Heap α) (s : Split α) : List AtomicEvent :=
  match h.get s.head with
  | none => []
  | some hc =>
    match hc.next with
    | none => [.load s.head .acquire none]
    | some nxt => [.load s.head .acquire (some nxt), .store s.head .relaxed none]

/-- The atomic accesses of the chain walk in `Drop for Queue`: one relaxed
load of `next` per visited cell. -/
def dropChainEvents (h : Heap α) : Option Nat → Nat → List AtomicEvent
  | none, _ => []
  | some _, 0 => []
  | some p, fuel + 1 =>
    match h.get p with
    | none => []
    | some c => .load p .relaxed c.next :: dropChainEvents (h.free p) c.next fuel

/-- The atomic accesses of `Drop for Queue`: the relaxed load of the
sentinel's `next`, then the chain walk's relaxed loads. -/
def dropQEvents (h : Heap α) (s : Split α) (fuel : Nat) : List AtomicEvent :=
  match h.get s.head with
  | none => []
  | some hc =>
    .load s.head .relaxed hc.next :: dropChainEvents (h.free s.head) hc.next fuel

/-- A cell in the release/acquire view model of the push/pop protocol: the
atomic `next` pointer, the view attached to it by its last release-store
(the set of payload addresses whose initializing non-atomic writes
happen-before that store), and the payload slot. -/
structure VCell (α : Type) where
  next : Option Nat
  view : List Nat
  data : Option α

/-- The view-model state of one producer/consumer pair: cells, allocator,
queue pointers, and each thread's view — the payload addresses whose
initializing non-atomic writes are visible to that thread. -/
structure VState (α : Type) where
  mem : Nat → Option (VCell α)
  fresh : Nat
  head : Nat
  tail : Nat
  pview : List Nat
  cview : List Nat

/-- The producer's `Node::new(v)`: a non-atomic write of the payload, which
enters the producer's view. -/
def vwriteNode (st : VState α) (v : α) : VState α :=
  { st with
    mem := fun q =>
      if q = st.fresh then some { next := none, view := [], data := some v }
      else st.mem q,
    fresh := st.fresh + 1,
    pview := st.fresh :: st.pview }

/-- The producer's `push`: the release-store of `tail->next` publishes the
pointer together with the producer's current view. -/
def vpush (st : VState α) (p : Nat) : VState α :=
  { st with
    mem := fun q =>
      if q = st.tail then
        (st.mem q).map fun c => { c with next := some p, view := st.pview }
      else st.mem q,
    tail := p }

/-- `Node::new` followed by `push` on the producer thread. -/
def vpushNew (st : VState α) (v : α) : VState α :=
  vpush (vwriteNode st v) st.fresh

/-- Result of a pop in the view model: `empty`, or `got visible value` where
`visible` records whether the loaded cell's address is in the consumer's view
after the acquire-load (so the non-atomic payload read is race-free), and
`value` is the payload read. -/
inductive VPopResult (α : Type) where
  | empty
  | got (visible : Bool) (value : Option α)
deriving DecidableEq

/-- The consumer's `pop` in the view model: the acquire-load of `head->next`
joins the view attached by the matching release-store into the consumer's
view; on a non-null pointer the payload is read non-atomically, the old
sentinel is scrubbed (a relaxed store attaches the empty view), and the head
advances. -/
def vpop (st : VState α) : VPopResult α × VState α :=
  match st.mem st.head with
  | none => (.empty, st)
  | some hc =>
    match hc.next with
    | none => (.empty, { st with cview := hc.view ++ st.cview })
    | some nxt =>
      (.got (decide (nxt ∈ hc.view ++ st.cview)) ((st.mem nxt).bind VCell.data),
        { st with
          mem := fun q =>
            if q = st.head then
              some { next := none, view := [], data := (st.mem nxt).bind VCell.data }
            else st.mem q,
          head := nxt, cview := hc.view ++ st.cview })

/-- Interleaved producer/consumer operations in the view model. -/
inductive VOp (α : Type) where
  | push (v : α)
  | pop

/-- One step of the view model. -/
def vstep (st : VState α) : VOp α → VState α
  | .push v => vpushNew st v
  | .pop => (vpop st).2

/-- The freshly split queue in the view model. -/
def vinit (α : Type) : VState α :=
  { mem := fun q => if q = 0 then some { next := none, view := [], data := none } else none,
    fresh := 1, head := 0, tail := 0, pview := [], cview := [] }

/-- Run a sequence of view-model operations from the fresh queue. -/
def vrun (ops : List (VOp α)) : VState α :=
  ops.foldl vstep (vinit α)

/-- The view-model invariant: the allocator is ahead of all live cells, the
head and tail cells are live (tail with null `next`), and every published
`next` pointer carries a view containing its target, whose payload slot is
initialized — i.e. the payload write happens-before every acquire-load that
observes the pointer. -/
structure VInv (st : VState α) : Prop where
  fresh_none : ∀ p, st.fresh ≤ p → st.mem p = none
  head_cell : ∃ c, st.mem st.head = some c
  tail_cell : ∃ c, st.mem st.tail = some c ∧ c.next = none
  next_vis : ∀ p c, st.mem p = some c → ∀ q, c.next = some q →
    q ∈ c.view ∧ ∃ d v, st.mem q = some d ∧ d.data = some v

/-! ### Heap lemmas -/

theorem Heap.get_set_self (h : Heap α) (p : Nat) (c : NodeInner α) :
    (h.set p c).get p = some c := by
  simp [Heap.get, Heap.set]

theorem Heap.get_set_ne (h : Heap α) {p q : Nat} (c : NodeInner α) (hne : q ≠ p) :
    (h.set p c).get q = h.get q := by
  simp [Heap.get, Heap.set, hne]

theorem Heap.get_free_self (h : Heap α) (p : Nat) : (h.free p).get p = none := by
  simp [Heap.get, Heap.free]

theorem Heap.get_free_ne (h : Heap α) {p q : Nat} (hne : q ≠ p) :
    (h.free p).get q = h.get q := by
  simp [Heap.get, Heap.free, hne]

theorem Heap.fresh_set (h : Heap α) (p : Nat) (c : NodeInner α) :
    (h.set p c).fresh = h.fresh := rfl

theorem Heap.fresh_free (h : Heap α) (p : Nat) : (h.free p).fresh = h.fresh := rfl

theorem Heap.alloc_fst (h : Heap α) (c : NodeInner α) : (h.alloc c).1 = h.fresh := rfl

theorem Heap.fresh_alloc (h : Heap α) (c : NodeInner α) :
    (h.alloc c).2.fresh = h.fresh + 1 := rfl

theorem Heap.get_alloc_self (h : Heap α) (c : NodeInner α) :
    (h.alloc c).2.get h.fresh = some c := by
  simp [Heap.get, Heap.alloc]

theorem Heap.get_alloc_ne (h : Heap α) {q : Nat} (c : NodeInner α) (hne : q ≠ h.fresh) :
    (h.alloc c).2.get q = h.get q := by
  simp [Heap.get, Heap.alloc, hne]

theorem HeapWF.lt_fresh {h : Heap α} (hwf : HeapWF h) {p : Nat} {c : NodeInner α}
    (hg : h.get p = some c) : p < h.fresh := by
  by_contra hle
  push_neg at hle
  rw [Heap.get, hwf p hle] at hg
  cases hg

theorem HeapWF.emptyHeap : HeapWF (emptyHeap α) := fun _ _ => rfl

theorem HeapWF.alloc {h : Heap α} (hwf : HeapWF h) (c : NodeInner α) :
    HeapWF (h.alloc c).2 := by
  intro p hp
  rw [Heap.fresh_alloc] at hp
  have hne : p ≠ h.fresh := by omega
  simpa [Heap.alloc, hne] using hwf p (by omega)

theorem HeapWF.set {h : Heap α} (hwf : HeapWF h) {p : Nat} (c : NodeInner α)
    (hp : p < h.fresh) : HeapWF (h.set p c) := by
  intro a ha
  rw [Heap.fresh_set] at ha
  have hne : a ≠ p := by omega
  simpa [Heap.set, hne] using hwf a ha

theorem HeapWF.free {h : Heap α} (hwf : HeapWF h) (p : Nat) : HeapWF (h.free p) := by
  intro a ha
  rw [Heap.fresh_free] at ha
  by_cases hap : a = p <;> simp [Heap.free, hap, hwf a ha]

/-! ### Chain lemmas -/

theorem Chain.nil_eq {h : Heap α} {p last : Nat} (hc : Chain h p [] last) : last = p := by
  cases hc
  rfl

theorem Chain.last_get {h : Heap α} {p : Nat} {l : List (Nat × α)} {last : Nat}
    (hc : Chain h p l last) : ∃ c, h.get last = some c ∧ c.next = none := by
  induction hc with
  | nil hg hn => exact ⟨_, hg, hn⟩
  | cons _ _ _ _ _ ih => exact ih

theorem Chain.last_mem {h : Heap α} {p : Nat} {l : List (Nat × α)} {last : Nat}
    (hc : Chain h p l last) : last ∈ p :: l.map Prod.fst := by
  induction hc with
  | nil _ _ => simp
  | cons _ _ _ _ _ ih =>
    simp only [List.map_cons, List.mem_cons] at ih ⊢
    tauto

theorem Chain.dom {h : Heap α} {p : Nat} {l : List (Nat × α)} {last : Nat}
    (hc : Chain h p l last) : ∀ a ∈ p :: l.map Prod.fst, ∃ c, h.get a = some c := by
  induction hc with
  | nil hg _ =>
    intro a ha
    simp only [List.map_nil, List.mem_cons, List.not_mem_nil, or_false] at ha
    exact ha ▸ ⟨_, hg⟩
  | @cons p c q d v l last hg hn hq hd _ ih =>
    intro a ha
    simp only [List.map_cons, List.mem_cons] at ha
    rcases ha with rfl | rfl | ha
    · exact ⟨_, hg⟩
    · exact ⟨_, hq⟩
    · exact ih a (by simp [ha])

theorem Chain.frame {h h' : Heap α} {p : Nat} {l : List (Nat × α)} {last : Nat}
    (hc : Chain h p l last)
    (hmem : ∀ a ∈ l.map Prod.fst, h'.get a = h.get a)
    (hstart : ∀ c, h.get p = some c → ∃ c', h'.get p = some c' ∧ c'.next = c.next) :
    Chain h' p l last := by
  induction hc with
  | @nil p c hg hn =>
    obtain ⟨c', hg', hn'⟩ := hstart c hg
    exact Chain.nil hg' (by rw [hn', hn])
  | @cons p c q d v l last hg hn hq hd hrest ih =>
    obtain ⟨c', hg', hn'⟩ := hstart c hg
    have hq' : h'.get q = some d := by
      rw [hmem q (by simp), hq]
    have hsub : Chain h' q l last := by
      refine ih (fun a ha => hmem a (by simp [ha])) (fun cq hcq => ⟨d, hq', ?_⟩)
      rw [hq] at hcq
      injection hcq with e
      rw [e]
    exact Chain.cons hg' (by rw [hn', hn]) hq' hd hsub

theorem Chain.snoc {h : Heap α} {p : Nat} {l : List (Nat × α)} {last : Nat}
    {c : NodeInner α} {newp : Nat} {v : α}
    (hc : Chain h p l last)
    (hlast : h.get last = some c)
    (hnd : (p :: l.map Prod.fst).Nodup)
    (hfresh : newp ∉ p :: l.map Prod.fst)
    (hnew : h.get newp = some { next := none, data := some v }) :
    Chain (h.set last { c with next := some newp }) p (l ++ [(newp, v)]) newp := by
  induction hc with
  | @nil p0 c0 hg hn =>
    have hc0 : c0 = c := by
      rw [hg] at hlast
      injection hlast
    subst hc0
    have hnp : newp ≠ p0 := by
      intro e
      exact hfresh (by simp [e])
    have hgnew : (h.set p0 { c0 with next := some newp }).get newp
        = some { next := none, data := some v } := by
      rw [Heap.get_set_ne h _ hnp, hnew]
    refine Chain.cons (Heap.get_set_self h p0 _) rfl hgnew rfl ?_
    exact Chain.nil hgnew rfl
  | @cons p0 c0 q d v0 l0 last0 hg hn hq hd hrest ih =>
    have hlast_mem : last0 ∈ q :: l0.map Prod.fst := hrest.last_mem
    have hnd2 : (p0 :: q :: l0.map Prod.fst).Nodup := by simpa using hnd
    have hp0 : p0 ∉ q :: l0.map Prod.fst := (List.nodup_cons.mp hnd2).1
    have hp0last : p0 ≠ last0 := fun e => hp0 (e ▸ hlast_mem)
    have hg' : (h.set last0 { c with next := some newp }).get p0 = some c0 := by
      rw [Heap.get_set_ne h _ hp0last, hg]
    have hqcell : ∃ d', (h.set last0 { c with next := some newp }).get q = some d'
        ∧ d'.data = some v0 := by
      by_cases hql : q = last0
      · subst hql
        have : d = c := by
          rw [hq] at hlast
          injection hlast
        subst this
        exact ⟨_, Heap.get_set_self h q _, hd⟩
      · exact ⟨d, by rw [Heap.get_set_ne h _ hql, hq], hd⟩
    obtain ⟨d', hq', hd'⟩ := hqcell
    have hnd' : (q :: l0.map Prod.fst).Nodup := (List.nodup_cons.mp hnd2).2
    have hfresh' : newp ∉ q :: l0.map Prod.fst := by
      intro hm
      exact hfresh (by simp only [List.map_cons, List.mem_cons] at hm ⊢; tauto)
    have hsub := ih hlast hnd' hfresh'
    exact Chain.cons hg' hn hq' hd' hsub

/-! ### Queue-invariant step lemmas -/

theorem QInv.push_eq {h : Heap α} {s : Split α} {l : List (Nat × α)}
    (hq : QInv h s l) (n : Node α) :
    ∃ c, h.get s.tail = some c ∧ c.next = none ∧
      push h s n = (h.set s.tail { c with next := some n.inner },
        { head := s.head, tail := n.inner }) := by
  obtain ⟨c, hcell, hcnext⟩ := hq.chain.last_get
  exact ⟨c, hcell, hcnext, by simp [push, hcell]⟩

theorem QInv.push_preserved {h : Heap α} {s : Split α} {l : List (Nat × α)}
    {n : Node α} {v : α}
    (hq : QInv h s l)
    (hn : h.get n.inner = some { next := none, data := some v })
    (hfresh : n.inner ∉ s.head :: l.map Prod.fst) :
    QInv (push h s n).1 (push h s n).2 (l ++ [(n.inner, v)]) := by
  obtain ⟨c, hcell, hcnext, heq⟩ := hq.push_eq n
  rw [heq]
  dsimp only
  refine ⟨?_, ?_, ?_⟩
  · obtain ⟨c0, hh, hd0⟩ := hq.sentinel
    by_cases hth : s.tail = s.head
    · have hcell' : h.get s.head = some c := hth ▸ hcell
      have he : c0 = c := Option.some.inj (hh.symm.trans hcell')
      subst he
      refine ⟨{ c0 with next := some n.inner }, ?_, hd0⟩
      rw [hth]
      show (h.set s.head { c0 with next := some n.inner }).get s.head
          = some { c0 with next := some n.inner }
      exact Heap.get_set_self h s.head _
    · exact ⟨c0, by rw [Heap.get_set_ne h _ (fun e => hth e.symm), hh], hd0⟩
  · exact hq.chain.snoc hcell hq.nodup hfresh hn
  · have hnd : ((s.head :: l.map Prod.fst) ++ [n.inner]).Nodup := by
      rw [List.nodup_append]
      refine ⟨hq.nodup, List.nodup_singleton _, ?_⟩
      intro a ha hb
      simp only [List.mem_singleton] at hb
      exact hfresh (hb ▸ ha)
    simpa using hnd

theorem QInv.pop_nil {h : Heap α} {s : Split α} (hq : QInv h s []) :
    pop h s = (none, h, s) ∧ s.tail = s.head := by
  have htail := hq.chain.nil_eq
  obtain ⟨c, hg, hn⟩ := hq.chain.last_get
  rw [htail] at hg
  exact ⟨by simp [pop, hg, hn], htail⟩

theorem QInv.pop_cons {h : Heap α} {s : Split α} {p : Nat} {v : α}
    {rest : List (Nat × α)}
    (hq : QInv h s ((p, v) :: rest)) :
    ∃ h2, pop h s = (some { inner := s.head }, h2, { head := p, tail := s.tail }) ∧
      QInv h2 { head := p, tail := s.tail } rest ∧
      h2.get s.head = some { next := none, data := some v } ∧
      h2.fresh = h.fresh ∧
      (∀ a, a ≠ s.head → a ≠ p → h2.get a = h.get a) := by
  have hnd2 : (s.head :: p :: rest.map Prod.fst).Nodup := by simpa using hq.nodup
  have hhd : s.head ∉ p :: rest.map Prod.fst := (List.nodup_cons.mp hnd2).1
  have hhp : s.head ≠ p := fun e => hhd (by simp [e])
  have hpne : p ∉ rest.map Prod.fst := (List.nodup_cons.mp (List.nodup_cons.mp hnd2).2).1
  cases hq.chain with
  | cons hg hn hq' hd hrest =>
    rename_i c d
    refine ⟨(h.set s.head { next := none, data := some v }).set p { d with data := none },
      ?_, ?_, ?_, rfl, ?_⟩
    · simp [pop, hg, hn, hq', hd]
    · refine ⟨⟨_, Heap.get_set_self _ p _, rfl⟩, ?_, (List.nodup_cons.mp hnd2).2⟩
      refine hrest.frame (fun a ha => ?_) (fun cq hcq => ?_)
      · have hap : a ≠ p := fun e => hpne (e ▸ ha)
        have hah : a ≠ s.head := by
          intro e
          exact hhd (by simp [← e, ha])
        rw [Heap.get_set_ne _ _ hap, Heap.get_set_ne _ _ hah]
      · have he : cq = d := by
          rw [hq'] at hcq
          injection hcq with e
          exact e.symm
        subst he
        exact ⟨_, Heap.get_set_self _ p _, rfl⟩
    · rw [Heap.get_set_ne _ _ hhp, Heap.get_set_self]
    · intro a hah hap
      rw [Heap.get_set_ne _ _ hap, Heap.get_set_ne _ _ hah]

/-! ### Whole-system step lemmas -/

theorem stepOp_push_eq (st : RunSt α) (v : α) :
    stepOp st (.push v) =
      { st with
        heap := (push (st.heap.alloc { next := none, data := some v }).2 st.q
          { inner := st.heap.fresh }).1,
        q := (push (st.heap.alloc { next := none, data := some v }).2 st.q
          { inner := st.heap.fresh }).2 } := rfl

theorem WF.queue_lt_fresh {st : RunSt α} {l : List (Nat × α)} (hw : WF st l) :
    ∀ a ∈ st.q.head :: l.map Prod.fst, a < st.heap.fresh := by
  intro a ha
  obtain ⟨c, hc⟩ := hw.qinv.chain.dom a ha
  exact hw.hwf.lt_fresh hc

theorem WF.step_push {st : RunSt α} {l : List (Nat × α)} (hw : WF st l) (v : α) :
    WF (stepOp st (.push v)) (l ++ [(st.heap.fresh, v)]) ∧
    (stepOp st (.push v)).pops = st.pops ∧
    (stepOp st (.push v)).popped = st.popped := by
  set f := st.heap.fresh with hf
  set h1 := (st.heap.alloc { next := none, data := some v }).2 with hh1
  have hget1 : ∀ a, a ≠ f → h1.get a = st.heap.get a := fun a ha =>
    Heap.get_alloc_ne st.heap _ ha
  have hlt := hw.queue_lt_fresh
  have hne : ∀ a ∈ st.q.head :: l.map Prod.fst, a ≠ f := fun a ha e =>
    absurd (hlt a ha) (by omega)
  have hq1 : QInv h1 st.q l := by
    obtain ⟨c0, hh, hd0⟩ := hw.qinv.sentinel
    refine ⟨⟨c0, ?_, hd0⟩, ?_, hw.qinv.nodup⟩
    · rw [hget1 _ (hne _ (by simp)), hh]
    · refine hw.qinv.chain.frame (fun a ha => hget1 a (hne a (by simp [ha])))
        (fun c hc => ⟨c, ?_, rfl⟩)
      rw [hget1 _ (hne _ (by simp)), hc]
  have hnode : h1.get f = some { next := none, data := some v } :=
    Heap.get_alloc_self st.heap _
  have hfresh : ({ inner := f } : Node α).inner ∉ st.q.head :: l.map Prod.fst :=
    fun hm => (hne f hm) rfl
  have hq2 := hq1.push_preserved hnode hfresh
  obtain ⟨c, hcell, hcnext, heq⟩ := hq1.push_eq ({ inner := f } : Node α)
  have htail_lt : st.q.tail < h1.fresh := by
    have : st.q.tail ∈ st.q.head :: l.map Prod.fst := hw.qinv.chain.last_mem
    have := hlt _ this
    rw [Heap.fresh_alloc]
    omega
  have hframe2 : ∀ a, a ≠ st.q.tail → a ≠ f →
      (push h1 st.q { inner := f }).1.get a = st.heap.get a := by
    intro a ha haf
    rw [heq]
    rw [Heap.get_set_ne h1 _ ha, hget1 a haf]
  refine ⟨?_, rfl, rfl⟩
  rw [stepOp_push_eq]
  refine ⟨?_, hq2, ?_, ?_, hw.popped_nodup, ?_⟩
  · show HeapWF (push h1 st.q { inner := f }).1
    rw [heq]
    exact (hw.hwf.alloc _).set _ htail_lt
  · intro n hn
    obtain ⟨w, hcw⟩ := hw.popped_cells n hn
    have hdisj := hw.popped_disj n hn
    have h1ne : n.inner ≠ st.q.tail := by
      intro e
      exact hdisj (e ▸ hw.qinv.chain.last_mem)
    have h2ne : n.inner ≠ f := by
      have := hw.hwf.lt_fresh hcw
      omega
    exact ⟨w, by rw [hframe2 _ h1ne h2ne, hcw]⟩
  · intro n hn
    have hdisj := hw.popped_disj n hn
    have h2ne : n.inner ≠ f := by
      obtain ⟨w, hcw⟩ := hw.popped_cells n hn
      have := hw.hwf.lt_fresh hcw
      omega
    simp only [List.map_append, List.map_cons, List.map_nil, List.mem_cons,
      List.mem_append, List.mem_singleton, List.not_mem_nil, or_false] at hdisj ⊢
    rintro (e | hm | e)
    · exact hdisj (Or.inl e)
    · exact hdisj (Or.inr hm)
    · exact h2ne e
  · show st.popped.map (fun n => derefNode (push h1 st.q { inner := f }).1 n)
        = (st.pops.filterMap id).map some
    rw [← hw.popped_vals]
    apply List.map_congr_left
    intro n hn
    have hdisj := hw.popped_disj n hn
    have h1ne : n.inner ≠ st.q.tail := by
      intro e
      exact hdisj (e ▸ hw.qinv.chain.last_mem)
    have h2ne : n.inner ≠ f := by
      obtain ⟨w, hcw⟩ := hw.popped_cells n hn
      have := hw.hwf.lt_fresh hcw
      omega
    unfold derefNode
    rw [hframe2 _ h1ne h2ne]

theorem WF.step_pop_nil {st : RunSt α} (hw : WF st []) :
    stepOp st .pop = { st with pops := st.pops ++ [none] } ∧
    WF { st with pops := st.pops ++ [none] } ([] : List (Nat × α)) := by
  obtain ⟨hpop, _⟩ := hw.qinv.pop_nil
  constructor
  · show (match pop st.heap st.q with
      | (none, h, q) => { st with heap := h, q := q, pops := st.pops ++ [none] }
      | (some n, h, q) =>
        { heap := h, q := q, popped := st.popped ++ [n],
          pops := st.pops ++ [derefNode h n] }) = { st with pops := st.pops ++ [none] }
    rw [hpop]
  · refine ⟨hw.hwf, hw.qinv, hw.popped_cells, hw.popped_disj, hw.popped_nodup, ?_⟩
    show st.popped.map (fun n => derefNode st.heap n)
        = ((st.pops ++ [none]).filterMap id).map some
    rw [hw.popped_vals]
    simp

theorem WF.step_pop_cons {st : RunSt α} {p : Nat} {v : α} {rest : List (Nat × α)}
    (hw : WF st ((p, v) :: rest)) :
    ∃ h2, stepOp st .pop =
        { heap := h2, q := { head := p, tail := st.q.tail },
          popped := st.popped ++ [{ inner := st.q.head }],
          pops := st.pops ++ [some v] } ∧
      WF { heap := h2, q := { head := p, tail := st.q.tail },
           popped := st.popped ++ [{ inner := st.q.head }],
           pops := st.pops ++ [some v] } rest := by
  obtain ⟨h2, hpop, hq2, hhead, hfresh2, hframe⟩ := hw.qinv.pop_cons
  have hnd2 : (st.q.head :: p :: rest.map Prod.fst).Nodup := by
    simpa using hw.qinv.nodup
  have hhp : st.q.head ≠ p := by
    have := (List.nodup_cons.mp hnd2).1
    exact fun e => this (by simp [e])
  have hderef : derefNode h2 { inner := st.q.head } = some v := by
    unfold derefNode
    rw [hhead]
    rfl
  refine ⟨h2, ?_, ?_⟩
  · have hstep : stepOp st .pop =
        { heap := h2, q := { head := p, tail := st.q.tail },
          popped := st.popped ++ [{ inner := st.q.head }],
          pops := st.pops ++ [derefNode h2 { inner := st.q.head }] } := by
      show (match pop st.heap st.q with
        | (none, h, q) => { st with heap := h, q := q, pops := st.pops ++ [none] }
        | (some n, h, q) =>
          { heap := h, q := q, popped := st.popped ++ [n],
            pops := st.pops ++ [derefNode h n] }) = _
      rw [hpop]
    rw [hstep, hderef]
  · have hcellframe : ∀ n ∈ st.popped, h2.get n.inner = st.heap.get n.inner := by
      intro n hn
      have hdisj := hw.popped_disj n hn
      simp only [List.map_cons, List.mem_cons] at hdisj
      exact hframe _ (fun e => hdisj (Or.inl e)) (fun e => hdisj (Or.inr (Or.inl e)))
    refine ⟨?_, hq2, ?_, ?_, ?_, ?_⟩
    · intro a ha
      rw [hfresh2] at ha
      have hah : a ≠ st.q.head := by
        obtain ⟨c0, hh, _⟩ := hw.qinv.sentinel
        have := hw.hwf.lt_fresh hh
        omega
      have hap : a ≠ p := by
        obtain ⟨c0, hh⟩ := hw.qinv.chain.dom p (by simp)
        have := hw.hwf.lt_fresh hh
        omega
      show h2.mem a = none
      have := hframe a hah hap
      rw [Heap.get] at this
      rw [this]
      exact hw.hwf a ha
    · intro n hn
      simp only [List.mem_append, List.mem_singleton] at hn
      rcases hn with hn | rfl
      · obtain ⟨w, hcw⟩ := hw.popped_cells n hn
        exact ⟨w, by rw [hcellframe n hn, hcw]⟩
      · exact ⟨v, hhead⟩
    · intro n hn
      simp only [List.mem_append, List.mem_singleton] at hn
      rcases hn with hn | rfl
      · have hdisj := hw.popped_disj n hn
        simp only [List.map_cons, List.mem_cons] at hdisj ⊢
        tauto
      · have := (List.nodup_cons.mp hnd2).1
        simpa using this
    · have hne : ∀ n ∈ st.popped, n.inner ≠ st.q.head := by
        intro n hn
        have hdisj := hw.popped_disj n hn
        simp only [List.map_cons, List.mem_cons] at hdisj
        exact fun e => hdisj (Or.inl e)
      simp only [List.map_append, List.map_cons, List.map_nil]
      rw [List.nodup_append]
      refine ⟨hw.popped_nodup, List.nodup_singleton _, ?_⟩
      intro a ha hb
      simp only [List.mem_singleton] at hb
      subst hb
      obtain ⟨n, hn, he⟩ := List.mem_map.mp ha
      exact hne n hn he
    · show (st.popped ++ [({ inner := st.q.head } : Node α)]).map (fun n => derefNode h2 n)
          = (((st.pops ++ [some v]).filterMap id)).map some
      rw [List.map_append]
      have h1 : st.popped.map (fun n => derefNode h2 n)
          = (st.pops.filterMap id).map some := by
        rw [← hw.popped_vals]
        apply List.map_congr_left
        intro n hn
        unfold derefNode
        rw [hcellframe n hn]
      rw [h1]
      simp [hderef]

/-! ### Run lemmas -/

theorem runOps_nil (st : RunSt α) : runOps st [] = st := rfl

theorem runOps_cons (st : RunSt α) (op : Op α) (ops : List (Op α)) :
    runOps st (op :: ops) = runOps (stepOp st op) ops := rfl

theorem runOps_append (st : RunSt α) (a b : List (Op α)) :
    runOps st (a ++ b) = runOps (runOps st a) b := by
  simp [runOps]

theorem pushedVals_push (v : α) (ops : List (Op α)) :
    pushedVals (Op.push v :: ops) = v :: pushedVals ops := rfl

theorem pushedVals_pop (ops : List (Op α)) :
    pushedVals (Op.pop :: ops) = pushedVals ops := rfl

theorem initSt_pops : (initSt α).pops = [] := rfl

theorem initSt_wf : WF (initSt α) ([] : List (Nat × α)) := by
  have hg : (initSt α).heap.get 0 = some ({ next := none, data := none } : NodeInner α) := rfl
  refine ⟨?_, ⟨⟨_, hg, rfl⟩, Chain.nil hg rfl, by simp⟩, ?_, ?_, ?_, ?_⟩
  · intro p hp
    have h1 : (initSt α).heap.fresh = 1 := rfl
    rw [h1] at hp
    show (if p = 0 then some ({ next := none, data := none } : NodeInner α) else none) = none
    rw [if_neg (by omega)]
  · intro n hn
    cases hn
  · intro n hn
    cases hn
  · exact List.nodup_nil
  · rfl

theorem run_wf_rel {st : RunSt α} {l : List (Nat × α)} (hw : WF st l)
    (ops : List (Op α)) :
    ∃ l', WF (runOps st ops) l' ∧
      valsPopped (runOps st ops) ++ l'.map Prod.snd
        = valsPopped st ++ l.map Prod.snd ++ pushedVals ops := by
  induction ops generalizing st l with
  | nil => exact ⟨l, hw, by simp [pushedVals, runOps_nil]⟩
  | cons op ops ih =>
    cases op with
    | push v =>
      obtain ⟨hw', hpops, _⟩ := hw.step_push v
      obtain ⟨l', hwf', hrel⟩ := ih hw'
      refine ⟨l', hwf', ?_⟩
      rw [runOps_cons, hrel, pushedVals_push]
      simp [valsPopped, hpops]
    | pop =>
      match l, hw with
      | [], hw =>
        obtain ⟨hstep, hw'⟩ := hw.step_pop_nil
        obtain ⟨l', hwf', hrel⟩ := ih hw'
        rw [runOps_cons, hstep] at *
        refine ⟨l', hwf', ?_⟩
        rw [hrel, pushedVals_pop]
        simp [valsPopped]
      | (pp, vv) :: rest, hw =>
        obtain ⟨h2, hstep, hw'⟩ := hw.step_pop_cons
        obtain ⟨l', hwf', hrel⟩ := ih hw'
        rw [runOps_cons, hstep] at *
        refine ⟨l', hwf', ?_⟩
        rw [hrel, pushedVals_pop]
        simp [valsPopped]

theorem run_conservation (ops : List (Op α)) :
    ∃ l', WF (runOps (initSt α) ops) l' ∧
      valsPopped (runOps (initSt α) ops) ++ l'.map Prod.snd = pushedVals ops := by
  obtain ⟨l', hwf, hrel⟩ := run_wf_rel initSt_wf ops
  refine ⟨l', hwf, ?_⟩
  rw [hrel]
  simp [valsPopped, initSt_pops]

theorem run_pushes {st : RunSt α} {l : List (Nat × α)} (hw : WF st l)
    (vs : List α) :
    ∃ l₂, WF (runOps st (vs.map .push)) l₂ ∧
      l₂.map Prod.snd = l.map Prod.snd ++ vs ∧
      (runOps st (vs.map .push)).pops = st.pops ∧
      (runOps st (vs.map .push)).popped = st.popped := by
  induction vs generalizing st l with
  | nil => exact ⟨l, hw, by simp [runOps_nil], by simp [runOps_nil], by simp [runOps_nil]⟩
  | cons v vs ih =>
    obtain ⟨hw', hpops, hpopped⟩ := hw.step_push v
    obtain ⟨l₂, hwf₂, hsnd, hpo, hpp⟩ := ih hw'
    rw [List.map_cons, runOps_cons]
    refine ⟨l₂, hwf₂, ?_, ?_, ?_⟩
    · rw [hsnd]
      simp
    · rw [hpo, hpops]
    · rw [hpp, hpopped]

theorem run_drain {st : RunSt α} {l : List (Nat × α)} (hw : WF st l) :
    WF (runOps st (List.replicate l.length .pop)) ([] : List (Nat × α)) ∧
    (runOps st (List.replicate l.length .pop)).pops
      = st.pops ++ (l.map Prod.snd).map some := by
  induction l generalizing st with
  | nil => exact ⟨hw, by simp [runOps_nil]⟩
  | cons hd rest ih =>
    obtain ⟨pp, vv⟩ := hd
    obtain ⟨h2, hstep, hw'⟩ := hw.step_pop_cons
    rw [List.length_cons, List.replicate_succ, runOps_cons, hstep]
    obtain ⟨hwf₂, hpops⟩ := ih hw'
    refine ⟨hwf₂, ?_⟩
    rw [hpops]
    simp

/-! ### Claim C1 -/

/-- C1: pushing values `v1..vk` into a fresh split queue and popping `k + 1`
times yields `some v1, …, some vk` followed by an empty pop; and over any
operation sequence, the values returned by `pop` form a prefix of the values
passed to `push` (no duplication, reordering, or loss). -/
theorem claim_C1 (α : Type) (vs : List α) (ops : List (Op α)) :
    (runOps (initSt α) (vs.map .push ++ List.replicate (vs.length + 1) .pop)).pops
      = vs.map some ++ [none] ∧
    valsPopped (runOps (initSt α) ops) <+: pushedVals ops := by
  constructor
  · obtain ⟨l₂, hwf₂, hsnd, hpo, _⟩ := run_pushes initSt_wf vs
    have hsnd' : l₂.map Prod.snd = vs := by simpa using hsnd
    have hlen : vs.length = l₂.length := by
      have := congrArg List.length hsnd'
      simpa using this.symm
    rw [runOps_append]
    have hrep : List.replicate (vs.length + 1) (Op.pop : Op α)
        = List.replicate l₂.length .pop ++ [.pop] := by
      rw [hlen]
      exact List.replicate_succ' _ _
    rw [hrep, runOps_append]
    obtain ⟨hwf₃, hpops₃⟩ := run_drain hwf₂
    obtain ⟨hstep, _⟩ := hwf₃.step_pop_nil
    rw [runOps_cons, runOps_nil, hstep]
    show (runOps (runOps (initSt α) (vs.map .push))
        (List.replicate l₂.length .pop)).pops ++ [none] = vs.map some ++ [none]
    rw [hpops₃, hpo, hsnd']
    simp [initSt_pops]
  · obtain ⟨l', _, hrel⟩ := run_conservation ops
    exact ⟨l'.map Prod.snd, hrel⟩

/-! ### Claims C3, C4, C6 -/

/-- C3: popping from a queue whose sentinel's `next` pointer is null returns
the absent value (not an error) and leaves the heap, head pointer, sentinel
cell, and producer tail entirely unchanged, so a subsequent push/pop sequence
behaves exactly as on the prior state. -/
theorem claim_C3 (α : Type) (h : Heap α) (s : Split α)
    (hemp : ∃ c, h.get s.head = some c ∧ c.next = none) :
    pop h s = (none, h, s) ∧
    ∀ st : RunSt α, st.heap = h → st.q = s →
      stepOp st .pop = { st with pops := st.pops ++ [none] } := by
  obtain ⟨c, hg, hn⟩ := hemp
  have hp : pop h s = (none, h, s) := by simp [pop, hg, hn]
  refine ⟨hp, ?_⟩
  intro st hh hq
  have hp' : pop st.heap st.q = (none, st.heap, st.q) := by
    rw [hh, hq, hp]
  show (match pop st.heap st.q with
    | (none, h, q) => { st with heap := h, q := q, pops := st.pops ++ [none] }
    | (some n, h, q) =>
      { heap := h, q := q, popped := st.popped ++ [n],
        pops := st.pops ++ [derefNode h n] }) = _
  rw [hp']

/-- C3 witness: the empty pop on a freshly split queue. -/
theorem claim_C3_witness :
    pop (initSt ℕ).heap (initSt ℕ).q = (none, (initSt ℕ).heap, (initSt ℕ).q) :=
  (claim_C3 ℕ (initSt ℕ).heap (initSt ℕ).q
    ⟨{ next := none, data := none }, rfl, rfl⟩).1

/-- C4: in every state reachable by operations on a fresh split queue, the
head points to a live cell whose data slot is uninitialized (the sentinel),
the logical contents are exactly the initialized payloads of the cells
reachable through head->next up to the first null (the chain ending at the
tail), and together with the values already returned by pops they are exactly
the pushed values — so no pop ever observes the sentinel's slot as a value. -/
theorem claim_C4 (α : Type) (ops : List (Op α)) :
    ∃ l, (∃ c, (runOps (initSt α) ops).heap.get (runOps (initSt α) ops).q.head
          = some c ∧ c.data = none) ∧
      Chain (runOps (initSt α) ops).heap (runOps (initSt α) ops).q.head l
        (runOps (initSt α) ops).q.tail ∧
      valsPopped (runOps (initSt α) ops) ++ l.map Prod.snd = pushedVals ops := by
  obtain ⟨l, hwf, hrel⟩ := run_conservation ops
  exact ⟨l, hwf.qinv.sentinel, hwf.qinv.chain, hrel⟩

/-- C6: after split and after any sequence of pushes and pops (hence between
the completion of any push and the start of the next), the producer's private
tail points to the last cell of the chain starting at head, and that cell's
`next` pointer is null. -/
theorem claim_C6 (α : Type) (ops : List (Op α)) :
    ∃ l c, Chain (runOps (initSt α) ops).heap (runOps (initSt α) ops).q.head l
        (runOps (initSt α) ops).q.tail ∧
      (runOps (initSt α) ops).heap.get (runOps (initSt α) ops).q.tail = some c ∧
      c.next = none := by
  obtain ⟨l, hwf, _⟩ := run_conservation ops
  obtain ⟨c, hg, hn⟩ := hwf.qinv.chain.last_get
  exact ⟨l, c, hwf.qinv.chain, hg, hn⟩

/-! ### Claim C2 -/

/-- C2 counterexample: on a queue already holding payload `0`, pushing a node
with payload `1` and then popping returns the payload `0` of the front node,
not the payload `1` of the node just pushed, refuting the claim for arbitrary
queue states. -/
theorem claim_C2_counterexample :
    (runOps (initSt ℕ) [.push 0, .push 1, .pop]).pops = [some 0] ∧ (0 : ℕ) ≠ 1 := by
  constructor
  · rfl
  · decide

/-- C2 amended: for every EMPTY queue state satisfying the queue invariant
and every live node `n` (cell disjoint from the queue's), `push(n); pop()`
returns `Some` node whose payload equals the payload of `n`; the returned
cell is the pre-pop sentinel, a different cell from `n`'s, and `n`'s cell
becomes the new sentinel with its data slot uninitialized. -/
theorem claim_C2_amended (α : Type) (h : Heap α) (s : Split α) (n : Node α) (v : α)
    (hq : QInv h s [])
    (hn : h.get n.inner = some { next := none, data := some v })
    (hfresh : n.inner ∉ s.head :: ([] : List (Nat × α)).map Prod.fst) :
    ∃ m h2 s2, pop (push h s n).1 (push h s n).2 = (some m, h2, s2) ∧
      derefNode h2 m = some v ∧
      m.inner = s.head ∧ m.inner ≠ n.inner ∧ s2.head = n.inner ∧
      (∃ c, h2.get s2.head = some c ∧ c.data = none) := by
  have hq2 : QInv (push h s n).1 (push h s n).2 [(n.inner, v)] := by
    have := hq.push_preserved hn hfresh
    simpa using this
  obtain ⟨h2, hpop, hq3, hhead, _, _⟩ := hq2.pop_cons
  have hhead' : (push h s n).2.head = s.head := rfl
  refine ⟨{ inner := s.head }, h2, { head := n.inner, tail := (push h s n).2.tail },
    ?_, ?_, rfl, ?_, rfl, ?_⟩
  · exact hpop
  · show (h2.get s.head).bind NodeInner.data = some v
    have hh : h2.get s.head = some { next := none, data := some v } := hhead
    rw [hh]
    rfl
  · intro e
    exact hfresh (by simp [← e])
  · obtain ⟨c, hg, hd⟩ := hq3.sentinel
    exact ⟨c, hg, hd⟩

/-- C2 amended witness: round-tripping payload `5` through a fresh queue. -/
theorem claim_C2_amended_witness :
    ∃ m h2 s2,
      pop (push (Node.new (initSt ℕ).heap 5).2 (initSt ℕ).q
            (Node.new (initSt ℕ).heap 5).1).1
          (push (Node.new (initSt ℕ).heap 5).2 (initSt ℕ).q
            (Node.new (initSt ℕ).heap 5).1).2
        = (some m, h2, s2) ∧
      derefNode h2 m = some 5 ∧
      m.inner = (initSt ℕ).q.head ∧
      m.inner ≠ (Node.new (initSt ℕ).heap 5).1.inner ∧
      s2.head = (Node.new (initSt ℕ).heap 5).1.inner ∧
      (∃ c, h2.get s2.head = some c ∧ c.data = none) := by
  have hg : (Node.new (initSt ℕ).heap 5).2.get 0
      = some ({ next := none, data := none } : NodeInner ℕ) := rfl
  exact claim_C2_amended ℕ _ _ _ 5
    ⟨⟨_, hg, rfl⟩, Chain.nil hg rfl, by simp⟩ rfl (by decide)

/-! ### Claim C5 -/

/-- C5: (1) `Node::new` yields a handle whose cell has null `next` and the
given payload; (2) a successful pop returns the old sentinel as a handle
whose cell has null (scrubbed) `next` and carries the popped payload; (3)
pushing any handle whose cell has null `next` and an initialized payload onto
any queue (the same or a different one) with disjoint cells preserves the
queue invariant and appends the payload to the contents — so push is correct
without ever writing the pushed cell's `next`, and popped nodes round-trip. -/
theorem claim_C5 (α : Type) :
    (∀ (h : Heap α) (v : α),
      (Node.new h v).2.get (Node.new h v).1.inner
        = some { next := none, data := some v }) ∧
    (∀ (h : Heap α) (s : Split α) (p : Nat) (v : α) (rest : List (Nat × α)),
      QInv h s ((p, v) :: rest) →
      ∃ h2 s2, pop h s = (some { inner := s.head }, h2, s2) ∧
        h2.get s.head = some { next := none, data := some v }) ∧
    (∀ (h : Heap α) (s : Split α) (l : List (Nat × α)) (n : Node α) (v : α),
      QInv h s l → h.get n.inner = some { next := none, data := some v } →
      n.inner ∉ s.head :: l.map Prod.fst →
      QInv (push h s n).1 (push h s n).2 (l ++ [(n.inner, v)])) := by
  refine ⟨?_, ?_, ?_⟩
  · intro h v
    exact Heap.get_alloc_self h _
  · intro h s p v rest hq
    obtain ⟨h2, hpop, _, hhead, _, _⟩ := hq.pop_cons
    exact ⟨h2, _, hpop, hhead⟩
  · intro h s l n v hq hn hf
    exact hq.push_preserved hn hf

/-- C5 witness: instantiating all three parts on concrete states. -/
theorem claim_C5_witness :
    ((Node.new (emptyHeap ℕ) 7).2.get (Node.new (emptyHeap ℕ) 7).1.inner
      = some { next := none, data := some 7 }) ∧
    (∃ h2 s2, pop (runOps (initSt ℕ) [.push 4]).heap (runOps (initSt ℕ) [.push 4]).q
        = (some { inner := (runOps (initSt ℕ) [.push 4]).q.head }, h2, s2) ∧
      h2.get (runOps (initSt ℕ) [.push 4]).q.head
        = some { next := none, data := some 4 }) ∧
    QInv (push (Node.new (initSt ℕ).heap 9).2 (initSt ℕ).q
        (Node.new (initSt ℕ).heap 9).1).1
      (push (Node.new (initSt ℕ).heap 9).2 (initSt ℕ).q
        (Node.new (initSt ℕ).heap 9).1).2
      ([] ++ [((Node.new (initSt ℕ).heap 9).1.inner, 9)]) := by
  have hc5 := claim_C5 ℕ
  refine ⟨hc5.1 (emptyHeap ℕ) 7, ?_, ?_⟩
  · have hg0 : (runOps (initSt ℕ) [.push 4]).heap.get 0
        = some ({ next := some 1, data := none } : NodeInner ℕ) := rfl
    have hg1 : (runOps (initSt ℕ) [.push 4]).heap.get 1
        = some ({ next := none, data := some 4 } : NodeInner ℕ) := rfl
    exact hc5.2.1 _ _ 1 4 []
      ⟨⟨_, hg0, rfl⟩, Chain.cons hg0 rfl hg1 rfl (Chain.nil hg1 rfl), by decide⟩
  · have hg : (Node.new (initSt ℕ).heap 9).2.get 0
        = some ({ next := none, data := none } : NodeInner ℕ) := rfl
    exact hc5.2.2 _ _ [] (Node.new (initSt ℕ).heap 9).1 9
      ⟨⟨_, hg, rfl⟩, Chain.nil hg rfl, by simp⟩ rfl (by decide)

/-! ### Claim C7 -/

theorem into_inner_spec {h : Heap α} {n : Node α} {c : NodeInner α} {v : α}
    (hg : h.get n.inner = some c) (hd : c.data = some v) :
    Node.into_inner h n = (some v, h.free n.inner, []) := by
  unfold Node.into_inner
  rw [hg]
  simp [hd]

/-- C7: `Node::into_inner(Node::new(v))` returns `v`; in general, for every
live node handle whose payload slot holds `v`, `into_inner` returns `v` by
bitwise move, frees the cell (the address is gone from the heap afterwards),
and performs no payload destructor call of its own (its destructor-event
trace is empty). -/
theorem claim_C7 (α : Type) :
    (∀ (h : Heap α) (v : α),
      Node.into_inner (Node.new h v).2 (Node.new h v).1
        = (some v, (Node.new h v).2.free (Node.new h v).1.inner, [])) ∧
    (∀ (h : Heap α) (n : Node α) (c : NodeInner α) (v : α),
      h.get n.inner = some c → c.data = some v →
      Node.into_inner h n = (some v, h.free n.inner, [])) ∧
    (∀ (h : Heap α) (p : Nat), (h.free p).get p = none) := by
  refine ⟨?_, ?_, ?_⟩
  · intro h v
    exact into_inner_spec (Heap.get_alloc_self h _) rfl
  · intro h n c v hg hd
    exact into_inner_spec hg hd
  · intro h p
    exact Heap.get_free_self h p

/-- C7 witness: extracting `7` from a freshly created node. -/
theorem claim_C7_witness :
    Node.into_inner (Node.new (emptyHeap ℕ) 7).2 (Node.new (emptyHeap ℕ) 7).1
      = (some 7, (Node.new (emptyHeap ℕ) 7).2.free (Node.new (emptyHeap ℕ) 7).1.inner, []) ∧
    ((emptyHeap ℕ).free 0).get 0 = none :=
  ⟨(claim_C7 ℕ).2.1 (Node.new (emptyHeap ℕ) 7).2 (Node.new (emptyHeap ℕ) 7).1
      { next := none, data := some 7 } 7 rfl rfl,
    (claim_C7 ℕ).2.2 (emptyHeap ℕ) 0⟩

/-! ### Claim C8 -/

theorem dropChain_none (h : Heap α) (fuel : Nat) : dropChain h none fuel = (h, []) := by
  cases fuel <;> rfl

theorem dropChain_chain : ∀ (l : List (Nat × α)) (h : Heap α) (q last : Nat)
    (c : NodeInner α), Chain h q l last → h.get q = some c →
    (q :: l.map Prod.fst).Nodup → ∀ fuel, l.length ≤ fuel →
    (dropChain (h.free q) c.next fuel).2 = l.map Prod.snd := by
  intro l
  induction l with
  | nil =>
    intro h q last c hc hq hnd fuel hf
    cases hc with
    | nil hg hn =>
      rename_i c2
      have he : c = c2 := Option.some.inj (hq.symm.trans hg)
      rw [he, hn, dropChain_none]
      rfl
  | cons hd tl ih =>
    intro h q last c hc hq hnd fuel hf
    obtain ⟨pp, vv⟩ := hd
    cases hc with
    | cons hg hn hq2 hd2 hrest =>
      rename_i c0 d
      have hcq : c = c0 := Option.some.inj (hq.symm.trans hg)
      subst hcq
      cases fuel with
      | zero => simp at hf
      | succ f =>
        have hndq : q ∉ pp :: tl.map Prod.fst :=
          (List.nodup_cons.mp (by simpa using hnd)).1
        have hppq : pp ≠ q := fun e => hndq (by simp [e])
        have hget : (h.free q).get pp = some d := by
          rw [Heap.get_free_ne h hppq]
          exact hq2
        have hstep : dropChain (h.free q) c.next (f + 1)
            = ((dropChain ((h.free q).free pp) d.next f).1,
               d.data.toList ++ (dropChain ((h.free q).free pp) d.next f).2) := by
          rw [hn]
          show (match (h.free q).get pp with
            | none => ((h.free q), ([] : List α))
            | some c => ((dropChain ((h.free q).free pp) c.next f).1,
                c.data.toList ++ (dropChain ((h.free q).free pp) c.next f).2)) = _
          rw [hget]
        rw [hstep]
        show d.data.toList ++ (dropChain ((h.free q).free pp) d.next f).2
            = vv :: tl.map Prod.snd
        have hchain' : Chain (h.free q) pp tl last := by
          refine hrest.frame (fun a ha => ?_) (fun cq hcq => ?_)
          · have hane : a ≠ q := by
              intro e
              exact hndq (by simp [← e, ha])
            exact Heap.get_free_ne h hane
          · have he2 : cq = d := Option.some.inj (hcq.symm.trans hq2)
            subst he2
            exact ⟨cq, hget, rfl⟩
        have hnd' : (pp :: tl.map Prod.fst).Nodup :=
          (List.nodup_cons.mp (by simpa using hnd)).2
        rw [ih (h.free q) pp last d hchain' hget hnd' f (by simpa using hf), hd2]
        rfl

theorem nodup_lt_length_le {l : List Nat} {n : Nat} (hnd : l.Nodup)
    (hlt : ∀ a ∈ l, a < n) : l.length ≤ n := by
  classical
  have h1 : l.toFinset.card = l.length := List.toFinset_card_of_nodup hnd
  have h2 : l.toFinset ⊆ Finset.range n := by
    intro a ha
    rw [List.mem_toFinset] at ha
    exact Finset.mem_range.mpr (hlt a ha)
  have h3 := Finset.card_le_card h2
  rw [h1, Finset.card_range] at h3
  exact h3

theorem dropNodes_events : ∀ (ns : List (Node α)) (h : Heap α) (vs : List α),
    (ns.map Node.inner).Nodup →
    ns.map (fun n => derefNode h n) = vs.map some →
    (dropNodes h ns).2 = vs ∧
    (∀ a, a ∉ ns.map Node.inner → (dropNodes h ns).1.get a = h.get a) ∧
    (dropNodes h ns).1.fresh = h.fresh := by
  intro ns
  induction ns with
  | nil =>
    intro h vs hnd hmap
    have hv : vs = [] := by
      cases vs with
      | nil => rfl
      | cons v vs => cases hmap
    subst hv
    exact ⟨rfl, fun a _ => rfl, rfl⟩
  | cons n ns ih =>
    intro h vs hnd hmap
    cases vs with
    | nil => cases hmap
    | cons v vs' =>
      simp only [List.map_cons, List.cons.injEq] at hmap
      obtain ⟨hv, hrest⟩ := hmap
      have hnd2 : (n.inner :: ns.map Node.inner).Nodup := by simpa using hnd
      have hnotin := (List.nodup_cons.mp hnd2).1
      have hnd' := (List.nodup_cons.mp hnd2).2
      have hmap' : ns.map (fun m => derefNode (Node.dropN h n).1 m) = vs'.map some := by
        rw [← hrest]
        apply List.map_congr_left
        intro m hm
        have hne : m.inner ≠ n.inner := fun e =>
          hnotin (e ▸ List.mem_map_of_mem Node.inner hm)
        show ((h.free n.inner).get m.inner).bind NodeInner.data
            = (h.get m.inner).bind NodeInner.data
        rw [Heap.get_free_ne h hne]
      obtain ⟨hev, hfr, hfresh⟩ := ih (Node.dropN h n).1 vs' hnd' hmap'
      refine ⟨?_, ?_, ?_⟩
      · show (Node.dropN h n).2 ++ (dropNodes (Node.dropN h n).1 ns).2 = v :: vs'
        rw [hev]
        show ((h.get n.inner).bind NodeInner.data).toList ++ vs' = v :: vs'
        rw [show (h.get n.inner).bind NodeInner.data = some v from hv]
        rfl
      · intro a ha
        simp only [List.map_cons, List.mem_cons] at ha
        push_neg at ha
        show (dropNodes (Node.dropN h n).1 ns).1.get a = h.get a
        rw [hfr a ha.2]
        show (h.free n.inner).get a = h.get a
        exact Heap.get_free_ne h ha.1
      · show (dropNodes (Node.dropN h n).1 ns).1.fresh = h.fresh
        rw [hfresh]
        rfl

theorem dropQ_events {h : Heap α} {s : Split α} {l : List (Nat × α)}
    (hq : QInv h s l) (fuel : Nat) (hf : l.length ≤ fuel) :
    (Queue.dropQ h s fuel).2 = l.map Prod.snd := by
  obtain ⟨c0, hh, hd0⟩ := hq.sentinel
  unfold Queue.dropQ
  rw [hh]
  exact dropChain_chain l h s.head s.tail c0 hq.chain hh hq.nodup fuel hf

/-- C8: over any operation sequence on a fresh split queue followed by full
teardown (dropping every node handle returned by pop, then dropping the
queue, which frees the sentinel without a payload destructor and walks the
chain running exactly one payload destructor per remaining cell), the
destructor-event trace is exactly the sequence of pushed values: exactly one
destructor call per payload ever pushed, and none from pop itself. -/
theorem claim_C8 (α : Type) (ops : List (Op α)) :
    finalizeEvents (runOps (initSt α) ops) = pushedVals ops := by
  obtain ⟨l, hwf, hrel⟩ := run_conservation ops
  have hdisj : ∀ a ∈ (runOps (initSt α) ops).q.head :: l.map Prod.fst,
      a ∉ (runOps (initSt α) ops).popped.map Node.inner := by
    intro a ha hmem
    obtain ⟨n, hn, he⟩ := List.mem_map.mp hmem
    exact hwf.popped_disj n hn (he ▸ ha)
  obtain ⟨hev1, hframe1, hfresh1⟩ := dropNodes_events (runOps (initSt α) ops).popped
    (runOps (initSt α) ops).heap (valsPopped (runOps (initSt α) ops))
    hwf.popped_nodup hwf.popped_vals
  have hq1 : QInv (dropNodes (runOps (initSt α) ops).heap
      (runOps (initSt α) ops).popped).1 (runOps (initSt α) ops).q l := by
    obtain ⟨c0, hh, hd0⟩ := hwf.qinv.sentinel
    refine ⟨⟨c0, ?_, hd0⟩, ?_, hwf.qinv.nodup⟩
    · rw [hframe1 _ (hdisj _ (by simp)), hh]
    · refine hwf.qinv.chain.frame (fun a ha => hframe1 a (hdisj a (by simp [ha])))
        (fun c hc => ⟨c, ?_, rfl⟩)
      rw [hframe1 _ (hdisj _ (by simp)), hc]
  have hlen : l.length ≤ (dropNodes (runOps (initSt α) ops).heap
      (runOps (initSt α) ops).popped).1.fresh := by
    rw [hfresh1]
    have hnd : (l.map Prod.fst).Nodup := (List.nodup_cons.mp hwf.qinv.nodup).2
    have hlt : ∀ a ∈ l.map Prod.fst, a < (runOps (initSt α) ops).heap.fresh :=
      fun a ha => hwf.queue_lt_fresh a (by simp [ha])
    have := nodup_lt_length_le hnd hlt
    simpa using this
  have hev2 := dropQ_events hq1 _ hlen
  show (dropNodes (runOps (initSt α) ops).heap (runOps (initSt α) ops).popped).2 ++
      (Queue.dropQ (dropNodes (runOps (initSt α) ops).heap
        (runOps (initSt α) ops).popped).1 (runOps (initSt α) ops).q
        (dropNodes (runOps (initSt α) ops).heap
          (runOps (initSt α) ops).popped).1.fresh).2 = pushedVals ops
  rw [hev1, hev2]
  exact hrel

/-! ### Claim C10 -/

theorem wf_nil_config {st : RunSt α} (hw : WF st ([] : List (Nat × α))) :
    st.q.head = st.q.tail ∧
    ∃ c, st.heap.get st.q.head = some c ∧ c.next = none ∧ c.data = none := by
  have htail := hw.qinv.chain.nil_eq
  obtain ⟨c, hg, hn⟩ := hw.qinv.chain.last_get
  rw [htail] at hg
  obtain ⟨c2, hg2, hd2⟩ := hw.qinv.sentinel
  have he : c = c2 := Option.some.inj (hg.symm.trans hg2)
  subst he
  exact ⟨htail.symm, c, hg, hn, hd2⟩

theorem run_rounds {st : RunSt α} (hw : WF st ([] : List (Nat × α)))
    (vss : List (List α)) :
    WF (runOps st (roundOps vss)) ([] : List (Nat × α)) ∧
    (runOps st (roundOps vss)).pops
      = st.pops ++ (vss.map (fun vs => vs.map some)).flatten := by
  induction vss generalizing st with
  | nil => exact ⟨hw, by simp [roundOps, runOps_nil]⟩
  | cons vs vss ih =>
    have hro : roundOps (vs :: vss)
        = (vs.map Op.push ++ List.replicate vs.length Op.pop) ++ roundOps vss := by
      simp [roundOps]
    rw [hro, runOps_append, runOps_append]
    obtain ⟨l₂, hwf₂, hsnd, hpo, _⟩ := run_pushes hw vs
    have hsnd' : l₂.map Prod.snd = vs := by simpa using hsnd
    have hlen : vs.length = l₂.length := by
      have := congrArg List.length hsnd'
      simpa using this.symm
    rw [hlen]
    obtain ⟨hwf₃, hpops₃⟩ := run_drain hwf₂
    obtain ⟨hwf₄, hpops₄⟩ := ih hwf₃
    refine ⟨hwf₄, ?_⟩
    rw [hpops₄, hpops₃, hpo, hsnd']
    simp

/-- C10: whenever the values popped equal the values pushed (the queue is
drained), the queue's head and the producer's tail point to the same cell,
whose `next` is null and whose data slot is uninitialized — the same
configuration as immediately after split — and consequently any number of
fill/drain rounds runs FIFO-correctly and ends in that configuration. -/
theorem claim_C10 (α : Type) :
    (∀ ops : List (Op α), valsPopped (runOps (initSt α) ops) = pushedVals ops →
      (runOps (initSt α) ops).q.head = (runOps (initSt α) ops).q.tail ∧
      ∃ c, (runOps (initSt α) ops).heap.get (runOps (initSt α) ops).q.head
          = some c ∧ c.next = none ∧ c.data = none) ∧
    (∀ vss : List (List α),
      (runOps (initSt α) (roundOps vss)).pops
          = (vss.map (fun vs => vs.map some)).flatten ∧
      (runOps (initSt α) (roundOps vss)).q.head
          = (runOps (initSt α) (roundOps vss)).q.tail ∧
      ∃ c, (runOps (initSt α) (roundOps vss)).heap.get
          (runOps (initSt α) (roundOps vss)).q.head = some c ∧
        c.next = none ∧ c.data = none) := by
  constructor
  · intro ops hdrain
    obtain ⟨l, hwf, hrel⟩ := run_conservation ops
    have hnil : l = [] := by
      rw [hdrain] at hrel
      have hlen := congrArg List.length hrel
      simp only [List.length_append, List.length_map] at hlen
      exact List.eq_nil_of_length_eq_zero (by omega)
    subst hnil
    exact wf_nil_config hwf
  · intro vss
    obtain ⟨hwf, hpops⟩ := run_rounds initSt_wf vss
    obtain ⟨hht, hc⟩ := wf_nil_config hwf
    refine ⟨?_, hht, hc⟩
    rw [hpops, initSt_pops]
    simp

/-- C10 witness: one push of `3` followed by one pop drains the queue. -/
theorem claim_C10_witness :
    valsPopped (runOps (initSt ℕ) [Op.push 3, Op.pop])
      = pushedVals [Op.push 3, Op.pop] ∧
    ((runOps (initSt ℕ) [Op.push 3, Op.pop]).q.head
        = (runOps (initSt ℕ) [Op.push 3, Op.pop]).q.tail ∧
      ∃ c, (runOps (initSt ℕ) [Op.push 3, Op.pop]).heap.get
          (runOps (initSt ℕ) [Op.push 3, Op.pop]).q.head = some c ∧
        c.next = none ∧ c.data = none) :=
  ⟨by decide, (claim_C10 ℕ).1 [Op.push 3, Op.pop] (by decide)⟩

/-! ### Claim C9 -/

theorem dropChainEvents_relaxed : ∀ (fuel : Nat) (h : Heap α) (cur : Option Nat)
    (e : AtomicEvent), e ∈ dropChainEvents h cur fuel →
    ∃ a x, e = .load a .relaxed x := by
  intro fuel
  induction fuel with
  | zero =>
    intro h cur e he
    cases cur with
    | none => cases he
    | some p => cases he
  | succ f ih =>
    intro h cur e he
    cases cur with
    | none => cases he
    | some p =>
      cases hg : h.get p with
      | none =>
        simp only [dropChainEvents, hg] at he
        cases he
      | some c =>
        simp only [dropChainEvents, hg, List.mem_cons] at he
        rcases he with rfl | he
        · exact ⟨p, c.next, rfl⟩
        · exact ih (h.free p) c.next e he

theorem vwriteNode_mem_self (st : VState α) (v : α) :
    (vwriteNode st v).mem st.fresh = some { next := none, view := [], data := some v } := by
  show (if st.fresh = st.fresh then _ else _) = _
  rw [if_pos rfl]

theorem vwriteNode_mem_ne (st : VState α) (v : α) {q : Nat} (h : q ≠ st.fresh) :
    (vwriteNode st v).mem q = st.mem q := by
  show (if q = st.fresh then _ else _) = _
  rw [if_neg h]

theorem vpushNew_mem_tail {st : VState α} (v : α) (h : st.tail ≠ st.fresh) :
    (vpushNew st v).mem st.tail = (st.mem st.tail).map
      (fun c => { c with next := some st.fresh, view := st.fresh :: st.pview }) := by
  show (if st.tail = st.tail then
      ((vwriteNode st v).mem st.tail).map
        (fun c => { c with next := some st.fresh, view := (vwriteNode st v).pview })
    else (vwriteNode st v).mem st.tail) = _
  rw [if_pos rfl, vwriteNode_mem_ne st v h]
  rfl

theorem vpushNew_mem_fresh {st : VState α} (v : α) (h : st.fresh ≠ st.tail) :
    (vpushNew st v).mem st.fresh = some { next := none, view := [], data := some v } := by
  show (if st.fresh = st.tail then _ else (vwriteNode st v).mem st.fresh) = _
  rw [if_neg h]
  exact vwriteNode_mem_self st v

theorem vpushNew_mem_ne {st : VState α} (v : α) {q : Nat}
    (h1 : q ≠ st.tail) (h2 : q ≠ st.fresh) :
    (vpushNew st v).mem q = st.mem q := by
  show (if q = st.tail then _ else (vwriteNode st v).mem q) = _
  rw [if_neg h1]
  exact vwriteNode_mem_ne st v h2

theorem VInv.lt_fresh_of_mem {st : VState α} (hinv : VInv st) {p : Nat} {c : VCell α}
    (h : st.mem p = some c) : p < st.fresh := by
  by_contra hle
  push_neg at hle
  rw [hinv.fresh_none p hle] at h
  cases h

theorem vinit_inv : VInv (vinit α) := by
  have h0 : (vinit α).mem 0 = some { next := none, view := [], data := none } := rfl
  refine ⟨?_, ⟨_, h0⟩, ⟨_, h0, rfl⟩, ?_⟩
  · intro p hp
    have h1 : (vinit α).fresh = 1 := rfl
    rw [h1] at hp
    show (if p = 0 then some ({ next := none, view := [], data := none } : VCell α)
        else none) = none
    rw [if_neg (by omega)]
  · intro p c hp q hq
    by_cases h : p = 0
    · subst h
      rw [h0] at hp
      cases Option.some.inj hp
      simp at hq
    · have hnone : (vinit α).mem p = none := by
        show (if p = 0 then _ else none) = none
        rw [if_neg h]
      rw [hnone] at hp
      cases hp

theorem VInv.vpushNew_preserved {st : VState α} (hinv : VInv st) (v : α) :
    VInv (vpushNew st v) := by
  obtain ⟨tc, htc, htn⟩ := hinv.tail_cell
  have htlt : st.tail < st.fresh := hinv.lt_fresh_of_mem htc
  have htne : st.tail ≠ st.fresh := by omega
  have hfne : st.fresh ≠ st.tail := by omega
  have hmt : (vpushNew st v).mem st.tail
      = some { next := some st.fresh, view := st.fresh :: st.pview, data := tc.data } := by
    rw [vpushNew_mem_tail v htne, htc]
    rfl
  have hmf : (vpushNew st v).mem st.fresh
      = some { next := none, view := [], data := some v } := vpushNew_mem_fresh v hfne
  refine ⟨?_, ?_, ⟨_, hmf, rfl⟩, ?_⟩
  · intro p hp
    have hp' : st.fresh + 1 ≤ p := hp
    have h1 : p ≠ st.tail := by omega
    have h2 : p ≠ st.fresh := by omega
    rw [vpushNew_mem_ne v h1 h2]
    exact hinv.fresh_none p (by omega)
  · obtain ⟨hc0, hh0⟩ := hinv.head_cell
    by_cases hht : st.head = st.tail
    · exact ⟨_, by show (vpushNew st v).mem st.head = _; rw [hht, hmt]⟩
    · have hhf : st.head ≠ st.fresh := by
        have := hinv.lt_fresh_of_mem hh0
        omega
      exact ⟨hc0, by
        show (vpushNew st v).mem st.head = some hc0
        rw [vpushNew_mem_ne v hht hhf]
        exact hh0⟩
  · intro p c hp q hq
    by_cases hpt : p = st.tail
    · subst hpt
      rw [hmt] at hp
      cases Option.some.inj hp
      have hqf : q = st.fresh := (Option.some.inj hq).symm
      subst hqf
      exact ⟨by simp, _, v, hmf, rfl⟩
    · by_cases hpf : p = st.fresh
      · subst hpf
        rw [hmf] at hp
        cases Option.some.inj hp
        simp at hq
      · rw [vpushNew_mem_ne v hpt hpf] at hp
        obtain ⟨hview, d, w, hd, hw⟩ := hinv.next_vis p c hp q hq
        refine ⟨hview, ?_⟩
        by_cases hqt : q = st.tail
        · subst hqt
          have he : d = tc := Option.some.inj (hd.symm.trans htc)
          subst he
          exact ⟨_, w, hmt, hw⟩
        · have hqf : q ≠ st.fresh := by
            have := hinv.lt_fresh_of_mem hd
            omega
          exact ⟨d, w, by rw [vpushNew_mem_ne v hqt hqf]; exact hd, hw⟩

theorem VInv.vpop_preserved {st : VState α} (hinv : VInv st) :
    VInv (vpop st).2 := by
  obtain ⟨hc0, hh0⟩ := hinv.head_cell
  cases hn : hc0.next with
  | none =>
    have hstep : (vpop st).2 = { st with cview := hc0.view ++ st.cview } := by
      simp only [vpop, hh0, hn]
    rw [hstep]
    exact ⟨hinv.fresh_none, hinv.head_cell, hinv.tail_cell, hinv.next_vis⟩
  | some nxt =>
    obtain ⟨hview, d, w, hd, hw⟩ := hinv.next_vis st.head hc0 hh0 nxt hn
    have hstep : (vpop st).2 = { st with
        mem := fun q =>
          if q = st.head then
            some { next := none, view := [], data := (st.mem nxt).bind VCell.data }
          else st.mem q,
        head := nxt, cview := hc0.view ++ st.cview } := by
      simp only [vpop, hh0, hn]
    rw [hstep]
    refine ⟨?_, ?_, ?_, ?_⟩
    · intro p hp
      have hph : p ≠ st.head := by
        have := hinv.lt_fresh_of_mem hh0
        have hp' : st.fresh ≤ p := hp
        omega
      show (if p = st.head then _ else st.mem p) = none
      rw [if_neg hph]
      exact hinv.fresh_none p hp
    · by_cases hnh : nxt = st.head
      · refine ⟨{ next := none, view := [], data := (st.mem nxt).bind VCell.data }, ?_⟩
        show (if nxt = st.head then _ else st.mem nxt) = _
        rw [if_pos hnh]
      · refine ⟨d, ?_⟩
        show (if nxt = st.head then _ else st.mem nxt) = some d
        rw [if_neg hnh]
        exact hd
    · obtain ⟨tc, htc, htn⟩ := hinv.tail_cell
      have hth : st.tail ≠ st.head := by
        intro e
        rw [e, hh0] at htc
        cases Option.some.inj htc
        rw [hn] at htn
        cases htn
      refine ⟨tc, ?_, htn⟩
      show (if st.tail = st.head then _ else st.mem st.tail) = some tc
      rw [if_neg hth]
      exact htc
    · intro p c hp q hq
      by_cases hph : p = st.head
      · have hp' : (if p = st.head then
            some ({ next := none, view := [], data := (st.mem nxt).bind VCell.data } : VCell α)
          else st.mem p) = some c := hp
        rw [if_pos hph] at hp'
        cases Option.some.inj hp'
        simp at hq
      · have hp' : (if p = st.head then
            some ({ next := none, view := [], data := (st.mem nxt).bind VCell.data } : VCell α)
          else st.mem p) = some c := hp
        rw [if_neg hph] at hp'
        obtain ⟨hview2, d2, w2, hd2, hw2⟩ := hinv.next_vis p c hp' q hq
        refine ⟨hview2, ?_⟩
        by_cases hqh : q = st.head
        · refine ⟨{ next := none, view := [], data := (st.mem nxt).bind VCell.data },
            w, ?_, ?_⟩
          · show (if q = st.head then _ else st.mem q) = _
            rw [if_pos hqh]
          · show (st.mem nxt).bind VCell.data = some w
            rw [hd]
            exact hw
        · refine ⟨d2, w2, ?_, hw2⟩
          show (if q = st.head then _ else st.mem q) = some d2
          rw [if_neg hqh]
          exact hd2

theorem vrun_inv (ops : List (VOp α)) : VInv (vrun ops) := by
  have hstep : ∀ st : VState α, VInv st → VInv (ops.foldl vstep st) := by
    induction ops with
    | nil => exact fun st h => h
    | cons op ops ih =>
      intro st h
      apply ih
      cases op with
      | push v => exact h.vpushNew_preserved v
      | pop => exact h.vpop_preserved
  exact hstep (vinit α) vinit_inv

theorem vpop_visible {st : VState α} (hinv : VInv st) {b : Bool} {val : Option α}
    (h : (vpop st).1 = .got b val) : b = true ∧ ∃ v, val = some v := by
  obtain ⟨hc, hh⟩ := hinv.head_cell
  cases hn : hc.next with
  | none =>
    simp only [vpop, hh, hn] at h
    cases h
  | some nxt =>
    simp only [vpop, hh, hn] at h
    obtain ⟨hvis, d, v, hdq, hdv⟩ := hinv.next_vis st.head hc hh nxt hn
    injection h with hb hv
    constructor
    · rw [← hb]
      simp [hvis]
    · refine ⟨v, ?_⟩
      rw [← hv, hdq]
      simp [hdv]

/-- C9: the only synchronizing atomic accesses in the whole library are the
release-store of `tail->next` in push and the acquire-load of `head->next`
in pop — the consumer's scrubbing store-null is relaxed and every access in
the queue destructor is a relaxed load.  In the release/acquire view model
of the protocol, every payload write the producer makes before the
release-store is visible to the consumer once its acquire-load observes that
`next`: in every reachable state, a pop that observes a non-null pointer
finds the payload's address in the consumer's view after the load (the
non-atomic read is race-free) and reads an initialized payload. -/
theorem claim_C9 (α : Type) :
    (∀ (s : Split α) (n : Node α),
      pushEvents s n = [.store s.tail .release (some n.inner)]) ∧
    (∀ (h : Heap α) (s : Split α),
      popEvents h s = [] ∨
      (∃ x, popEvents h s = [.load s.head .acquire x]) ∨
      (∃ p, popEvents h s
        = [.load s.head .acquire (some p), .store s.head .relaxed none])) ∧
    (∀ (h : Heap α) (s : Split α) (fuel : Nat) (e : AtomicEvent),
      e ∈ dropQEvents h s fuel → e.ord = .relaxed ∧ ∃ a x, e = .load a .relaxed x) ∧
    (∀ ops : List (VOp α), VInv (vrun ops)) ∧
    (∀ (ops : List (VOp α)) (b : Bool) (val : Option α),
      (vpop (vrun ops)).1 = .got b val → b = true ∧ ∃ v, val = some v) := by
  refine ⟨fun s n => rfl, ?_, ?_, vrun_inv, ?_⟩
  · intro h s
    cases hg : h.get s.head with
    | none =>
      left
      simp [popEvents, hg]
    | some hc =>
      cases hn : hc.next with
      | none =>
        right; left
        exact ⟨none, by simp [popEvents, hg, hn]⟩
      | some nxt =>
        right; right
        exact ⟨nxt, by simp [popEvents, hg, hn]⟩
  · intro h s fuel e he
    cases hg : h.get s.head with
    | none =>
      simp only [dropQEvents, hg] at he
      cases he
    | some hc =>
      simp only [dropQEvents, hg, List.mem_cons] at he
      rcases he with rfl | he
      · exact ⟨rfl, s.head, hc.next, rfl⟩
      · obtain ⟨a, x, hax⟩ := dropChainEvents_relaxed fuel _ hc.next e he
        exact ⟨by rw [hax]; rfl, a, x, hax⟩
  · intro ops b val h
    exact vpop_visible (vrun_inv ops) h

/-- C9 witness: after the producer pushes `5` in the view model, the
consumer's pop observes the pointer, the payload address is in its view, and
it reads `5`; the event enumerations instantiated on a concrete state. -/
theorem claim_C9_witness :
    pushEvents ({ head := 0, tail := 0 } : Split ℕ) ({ inner := 1 } : Node ℕ)
      = [.store 0 .release (some 1)] ∧
    (popEvents (initSt ℕ).heap (initSt ℕ).q = [] ∨
      (∃ x, popEvents (initSt ℕ).heap (initSt ℕ).q = [.load 0 .acquire x]) ∨
      (∃ p, popEvents (initSt ℕ).heap (initSt ℕ).q
        = [.load 0 .acquire (some p), .store 0 .relaxed none])) ∧
    ((vpop (vrun [VOp.push (5 : ℕ)])).1 = .got true (some 5) ∧
      (true = true ∧ ∃ v, (some (5 : ℕ)) = some v)) := by
  refine ⟨(claim_C9 ℕ).1 _ _, ?_, ?_, ?_⟩
  · exact (claim_C9 ℕ).2.1 (initSt ℕ).heap (initSt ℕ).q
  · decide
  · exact (claim_C9 ℕ).2.2.2.2 [VOp.push 5] true (some 5) (by decide)

end LLQ
